import Mathlib

set_option maxHeartbeats 1000000

/-!
Shallow embedding of the `fastconv` repository: `src/digits_to_number.py`
(forward pipeline, digit sequence to integer) and `src/number_to_digits.py`
(reverse pipeline, integer to digit sequence).

Modelling conventions used throughout:

* Python arbitrary-precision non-negative integers are `Nat`; the one
  variable that transiently becomes negative (`ndigits` inside
  `get_ndigits`) is `Int`.
* The parallel scheduling is deterministic up to reassembly order, and
  every partial result carries its position (worker index, digit index),
  so the pipelines are modelled as sequential functions.  The ambient
  parameter `os.cpu_count()` is passed explicitly as `cpu`; the source
  constant `LEAF_TASK_DIGIT_LIMIT` that some claims quantify over is the
  explicit argument `L` of the parametric forward pipeline, with the real
  entry point instantiating `L := LEAF_TASK_DIGIT_LIMIT = 1000`.
* Code paths that raise in Python (a worker receiving an empty digit list,
  which hits an unbound local variable; `combine` on an empty list, an
  IndexError; zero workers, a ZeroDivisionError) make the coordinator
  either crash or block forever; they are modelled by `Option`, with
  `none` standing for "no result is ever produced".
* `while` loops are modelled by fuel recursion where the fuel, chosen from
  the loop's entry data, provably dominates the number of iterations the
  Python loop performs on the modelled domain (`base ≥ 2`), so the fuel
  branch is never the one that answers.
-/

namespace DigitsToNumber

/-- Source constant `LEAF_TASK_DIGIT_LIMIT = 1000` of digits_to_number.py. -/
def LEAF_TASK_DIGIT_LIMIT : Nat := 1000

/-- `convert(base, digits, indices)`: Horner evaluation `n = n * base + digits[i]`
left to right.  The contiguous index range is modelled by passing the
corresponding sub-list. -/
def convert (base : Nat) (digits : List Nat) : Nat :=
  digits.foldl (fun n d => n * base + d) 0

/-- One round of the `while` loop of `combine`: the `for i in range(0, len(nums), 2)`
pass.  With more than two entries remaining the pair is merged with `base`;
with exactly two remaining (the pair touching the final block) the pair is
merged with `last_base`, which is then multiplied by `base`; a single
remaining entry passes through. -/
def pairUp (base lb : Nat) : List Nat → List Nat × Nat
  | x :: y :: z :: rest =>
    let p := pairUp base lb (z :: rest)
    ((x * base + y) :: p.1, p.2)
  | [x, y] => ([x * lb + y], lb * base)
  | l => (l, lb)

/-- The `while len(nums) > 1` loop of `combine`, with `base **= 2` between
rounds.  Fuel: each round at least halves a list of length ≥ 2, so
`nums.length` rounds always suffice (see `combineAux_eq`); the empty list
hits `nums[0]`, an IndexError, modelled by `none`. -/
def combineAux : Nat → List Nat → Nat → Nat → Option (Nat × Nat)
  | _, [], _, _ => none
  | _, [x], _, lb => some (x, lb)
  | 0, _ :: _ :: _, _, _ => none
  | fuel + 1, x :: y :: rest, base, lb =>
    combineAux fuel (pairUp base lb (x :: y :: rest)).1 (base * base)
      (pairUp base lb (x :: y :: rest)).2

/-- `combine(nums, base, last_base)` of digits_to_number.py. -/
def combine (nums : List Nat) (base lb : Nat) : Option (Nat × Nat) :=
  combineAux nums.length nums base lb

/-- The chunking loop `for i in range(0, len(digits), LEAF_TASK_DIGIT_LIMIT)`
of `Worker.start`, with chunk size `L`.  Fuel: for `L ≥ 1` (all uses) each
step consumes at least one element, so `digits.length` steps suffice. -/
def chunkListAux (L : Nat) : Nat → List Nat → List (List Nat)
  | _, [] => []
  | 0, _ :: _ => []
  | fuel + 1, d :: ds => ((d :: ds).take L) :: chunkListAux L fuel ((d :: ds).drop L)

/-- The list of digit chunks a worker converts one by one. -/
def chunkList (L : Nat) (digits : List Nat) : List (List Nat) :=
  chunkListAux L digits.length digits

/-- Length of the final chunk: the value the loop variable `ndigits` of
`Worker.start` has after the chunking loop (`min(len(digits) - i, L)` at the
last iteration). -/
def lastLen : List (List Nat) → Nat
  | [] => 0
  | [c] => c.length
  | _ :: c :: cs => lastLen (c :: cs)

/-- `Worker.start(worker_id, digits)` of digits_to_number.py: convert each
chunk, then combine the chunk values with `base = self._large_base = base**L`
and `last_base = base**ndigits`.  With an empty digit list the chunking loop
never runs and `base**ndigits` raises NameError (`ndigits` unbound): `none`.
The `worker_id` tag is only used to re-sequence results and is modelled by
list position. -/
def Worker.start (L base : Nat) (digits : List Nat) : Option (Nat × Nat) :=
  match chunkList L digits with
  | [] => none
  | c :: cs =>
    combine ((c :: cs).map (convert base)) (base ^ L) (base ^ lastLen (c :: cs))

/-- One level of the inter-worker reduction tree (`combine_results`'s round):
`combine_result_pair` merges adjacent results with
`num = left.number * right.base + right.number`, `base = left.base * right.base`;
an unpaired final result passes through.  Results are `(number, base)` pairs
ordered by worker index. -/
def pairResults : List (Nat × Nat) → List (Nat × Nat)
  | r0 :: r1 :: rest => (r0.1 * r1.2 + r1.1, r0.2 * r1.2) :: pairResults rest
  | l => l

/-- The `while len(results) > 1` loop of `combine_results`.  Fuel: each round
at least halves a list of length ≥ 2, so `results.length` rounds suffice; an
empty result list hits `results[0]`, modelled by `none`. -/
def combineResultsAux : Nat → List (Nat × Nat) → Option Nat
  | _, [] => none
  | _, [r] => some r.1
  | 0, _ :: _ :: _ => none
  | fuel + 1, r0 :: r1 :: rest => combineResultsAux fuel (pairResults (r0 :: r1 :: rest))

/-- `combine_results(results)` of digits_to_number.py. -/
def combine_results (results : List (Nat × Nat)) : Option Nat :=
  combineResultsAux results.length results

/-- Worker count: `nworkers = os.cpu_count(); nworkers -= nworkers // 4;
nworkers = min(nworkers, ndigits)`. -/
def nworkersFor (cpu ndigits : Nat) : Nat :=
  min (cpu - cpu / 4) ndigits

/-- The contiguous worker ranges `digits[i*dpw : (i+1)*dpw]` with
`dpw = (ndigits + nworkers - 1) // nworkers` (Python slices clamp at the
end of the list). -/
def workerSlices (digits : List Nat) (nworkers : Nat) : List (List Nat) :=
  (List.range nworkers).map fun i =>
    (digits.drop (i * ((digits.length + nworkers - 1) / nworkers))).take
      ((digits.length + nworkers - 1) / nworkers)

/-- Collect one result per worker (re-sequenced by worker index).  If any
worker crashes, the coordinator blocks on `results_queue.get()` forever:
`none`. -/
def collectResults (L base : Nat) : List (List Nat) → Option (List (Nat × Nat))
  | [] => some []
  | s :: ss =>
    match Worker.start L base s, collectResults L base ss with
    | some r, some rs => some (r :: rs)
    | _, _ => none

/-- `digits_to_number(digits, base)` with explicit `cpu = os.cpu_count()` and
explicit chunk size `L`.  `nworkers = 0` (empty input) raises
ZeroDivisionError in `(ndigits + nworkers - 1) // nworkers`: `none`. -/
def digitsToNumberWith (L : Nat) (digits : List Nat) (base cpu : Nat) : Option Nat :=
  if nworkersFor cpu digits.length = 0 then none
  else
    match collectResults L base (workerSlices digits (nworkersFor cpu digits.length)) with
    | none => none
    | some rs => combine_results rs

/-- `digits_to_number(digits, base)` of digits_to_number.py, at the source's
chunk size `LEAF_TASK_DIGIT_LIMIT = 1000`. -/
def digits_to_number (digits : List Nat) (base cpu : Nat) : Option Nat :=
  digitsToNumberWith LEAF_TASK_DIGIT_LIMIT digits base cpu

/-- Positional value of the concatenation of digit blocks: every block but
the last is `s` digits wide in base `B`, the last is `t` digits wide.
For a list `[v₁, …, vₖ]` this is
`v₁ * B ^ ((k - 2) * s + t) + ⋯ + vₖ₋₁ * B ^ t + vₖ`, the value the claims
describe for `combine`. -/
def blockValue (B s t : Nat) : List Nat → Nat
  | [] => 0
  | [v] => v
  | v :: w :: vs =>
    v * B ^ (((w :: vs).length - 1) * s + t) + blockValue B s t (w :: vs)

/-- Concatenation of a list of digit chunks. -/
def concatL : List (List Nat) → List Nat
  | [] => []
  | c :: cs => c ++ concatL cs

/-- Value represented by a list of `(value, weight)` partial results, the
weight of each being the base power of its block width: the value of the
concatenation of the blocks, most significant first. -/
def resultsValue : List (Nat × Nat) → Nat
  | [] => 0
  | r :: rs => r.1 * (rs.map Prod.snd).prod + resultsValue rs

/-- Shape of a worker's chunk list: every chunk but the last has exactly `L`
digits, the last is non-empty with at most `L`. -/
inductive Blocks (L : Nat) : List (List Nat) → Prop
  | single (c : List Nat) : c ≠ [] → c.length ≤ L → Blocks L [c]
  | cons (c : List Nat) (rest : List (List Nat)) :
      c.length = L → Blocks L rest → Blocks L (c :: rest)

end DigitsToNumber

namespace NumberToDigits

/-- Source constant `LEAF_TASK_DIGIT_LIMIT = 1000` of number_to_digits.py. -/
def LEAF_TASK_DIGIT_LIMIT : Nat := 1000

/-- `n.bit_length()`: number of binary digits of `n`, 0 for `n = 0`.
Fuel: each step halves `n`, so `n` steps dominate the iteration count. -/
def bitLenAux : Nat → Nat → Nat
  | _, 0 => 0
  | 0, _ + 1 => 0
  | fuel + 1, n + 1 => bitLenAux fuel ((n + 1) / 2) + 1

/-- `n.bit_length()`. -/
def bit_length (n : Nat) : Nat :=
  bitLenAux n n

/-- The starting estimate `math.ceil(n.bit_length() / math.log2(base))` of
`get_ndigits`, modelled with exact arithmetic as the least `k` with
`base ^ k ≥ 2 ^ bit_length n` (the exact real ceiling; the source computes
it in floating point, whose rounding can only change the estimate, and the
correction loops make the final result independent of the estimate — see
`decLoopAux_log` / `incLoopAux_log`, which hold for every starting value).
Fuel: `base ≥ 2` reaches the target within `bit_length n` steps. -/
def estAux (base target : Nat) : Nat → Nat → Nat
  | 0, k => k
  | fuel + 1, k => if base ^ k < target then estAux base target fuel (k + 1) else k

/-- The downward correction loop of `get_ndigits`:
`while max > n: max //= base; ndigits -= 1`.  Fuel: from `max = base ^ est`
the loop runs at most `est + 1` times (`max` strictly decreases to 0). -/
def decLoopAux (base n : Nat) : Nat → Nat → Int → Int
  | 0, _, nd => nd
  | fuel + 1, m, nd => if n < m then decLoopAux base n fuel (m / base) (nd - 1) else nd

/-- The upward correction loop of `get_ndigits`:
`while max <= n: max *= base; ndigits += 1`.  Fuel: for `base ≥ 2` the loop
runs at most `log base n + 1 ≤ n` times. -/
def incLoopAux (base n : Nat) : Nat → Nat → Int → Int
  | 0, _, nd => nd
  | fuel + 1, m, nd => if m ≤ n then incLoopAux base n fuel (m * base) (nd + 1) else nd

/-- The estimate `ndigits = math.ceil(n.bit_length() / math.log2(base))`. -/
def ndigitsEstimate (n base : Nat) : Nat :=
  estAux base (2 ^ bit_length n) (bit_length n + 1) 0

/-- `get_ndigits(n, base)` of number_to_digits.py: estimate, then correct
downward (re-adding the final digit) or upward.  Faithful on the modelled
domain `base ≥ 2` (for `base < 2` the source raises inside `math.log2`). -/
def get_ndigits (n base : Nat) : Int :=
  if n < base ^ ndigitsEstimate n base then
    decLoopAux base n (ndigitsEstimate n base + 1) (base ^ ndigitsEstimate n base)
      (ndigitsEstimate n base) + 1
  else
    incLoopAux base n (n + 1) (base ^ ndigitsEstimate n base) (ndigitsEstimate n base)

/-- The `while ndigits > LEAF_TASK_DIGIT_LIMIT: ndigits += 1; ndigits //= 2;
depth += 1` loop of `get_depth`.  Fuel: the argument at least halves each
step, so `ndigits` steps dominate. -/
def getDepthAux : Nat → Nat → Nat
  | 0, _ => 0
  | fuel + 1, nd => if 1000 < nd then getDepthAux fuel ((nd + 1) / 2) + 1 else 0

/-- `get_depth(ndigits)` of number_to_digits.py. -/
def get_depth (ndigits : Nat) : Nat :=
  getDepthAux ndigits ndigits

/-- The `Task` dataclass: convert `number` into exactly `ndigits` base-`base`
digits starting at `index` of the output, with `depth` splits remaining. -/
structure Task where
  number : Nat
  ndigits : Nat
  index : Nat
  depth : Nat
  deriving DecidableEq

/-- The `Result` dataclass: a digit slice to splice in at `index`. -/
structure Result where
  index : Nat
  digits : List Nat
  deriving DecidableEq

/-- `process_internal(base, task)`: split into `[upper, lower]` via
`divmod(task.number, base ** lower_ndigits)`; digit counts split as evenly
as possible with the lower half getting the floor; both children carry
`depth - 1`. -/
def process_internal (base : Nat) (task : Task) : List Task :=
  let depth := task.depth - 1
  let lower_ndigits := task.ndigits / 2
  let upper_ndigits := task.ndigits - lower_ndigits
  [{ number := task.number / base ^ lower_ndigits, ndigits := upper_ndigits,
     index := task.index, depth := depth },
   { number := task.number % base ^ lower_ndigits, ndigits := lower_ndigits,
     index := task.index + upper_ndigits, depth := depth }]

/-- The digit array built by the leaf loop of `process_leaf`:
`for i in reversed(range(ndigits)): n, m = divmod(n, base): digits[i] = m`.
Position `ndigits - 1` receives `n % base` and the positions before it the
digits of `n / base`, which is exactly this recursion. -/
def leafDigits (base : Nat) : Nat → Nat → List Nat
  | 0, _ => []
  | k + 1, n => leafDigits base k (n / base) ++ [n % base]

/-- `process_leaf(base, task)` of number_to_digits.py. -/
def process_leaf (base : Nat) (task : Task) : Result :=
  { index := task.index, digits := leafDigits base task.ndigits task.number }

/-- The task tree: a worker that pops a task of depth 0 solves it with
`process_leaf`; otherwise it requeues the two `process_internal` children,
each of depth one less.  The multiset of leaf results of a run is exactly
this tree's leaves; we list them in upper-then-lower order (results carry
their output index and tile disjoint ranges, so assembly order is
irrelevant).  Structural fuel: the children of a depth-`d + 1` task have
depth `d`. -/
def runTaskAux (base : Nat) : Nat → Task → List Result
  | 0, task => [process_leaf base task]
  | d + 1, task =>
    match process_internal base task with
    | [upper, lower] => runTaskAux base d upper ++ runTaskAux base d lower
    | _ => []

/-- All leaf results produced for a task (workers branch on `depth == 0`). -/
def run_task (base : Nat) (task : Task) : List Result :=
  runTaskAux base task.depth task

/-- The root task seeded by `number_to_digits`:
`Task(number=n, ndigits=ndigits, index=0, depth=depth)`. -/
def rootTask (n base : Nat) : Task :=
  { number := n, ndigits := (get_ndigits n base).toNat, index := 0,
    depth := get_depth ((get_ndigits n base).toNat) }

/-- The inner loop of `apply_result`: write the digits at consecutive
positions starting at `i`. -/
def writeAt (digits : List Nat) (i : Nat) : List Nat → List Nat
  | [] => digits
  | d :: ds => writeAt (digits.set i d) (i + 1) ds

/-- `apply_result(digits, result)` of number_to_digits.py. -/
def apply_result (digits : List Nat) (result : Result) : List Nat :=
  writeAt digits result.index result.digits

/-- `number_to_digits(n, base)` of number_to_digits.py: seed the root task,
run the pool to completion, then splice every collected result into
`digits = [0] * ndigits`.  (`ndigits` is the non-negative value
`get_ndigits` returns on the modelled domain, hence `Int.toNat`.) -/
def number_to_digits (n base : Nat) : List Nat :=
  (run_task base (rootTask n base)).foldl apply_result
    (List.replicate (rootTask n base).ndigits 0)

/-- A task is reachable from `root` when some run of the pool can pop it:
the root itself is, and so is each `process_internal` child of a reachable
task whose depth is not 0 (depth-0 tasks go to `process_leaf` instead). -/
inductive Reachable (base : Nat) (root : Task) : Task → Prop
  | refl : Reachable base root root
  | split (t u : Task) : Reachable base root t → t.depth ≠ 0 →
      u ∈ process_internal base t → Reachable base root u

/-- Concatenation of the digit slices of a result list. -/
def concatDigits : List Result → List Nat
  | [] => []
  | r :: rs => r.digits ++ concatDigits rs

/-- The results tile consecutive index ranges starting at `i`: each result
starts exactly where the previous one ended. -/
def TilesFrom : Nat → List Result → Prop
  | _, [] => True
  | i, r :: rs => r.index = i ∧ TilesFrom (i + r.digits.length) rs

end NumberToDigits

namespace DigitsToNumber

/-! ### Correctness of `combine`

A list of block values `v₁ … vₖ`, each `vᵢ` with `i < k` standing for an
`s`-digit block in base `B` and `vₖ` for a `t`-digit block, concatenates to
the value `blockValue B s t [v₁, …, vₖ]`; `combine` computes exactly that
value together with the weight `B ^ ((k - 1) * s + t)` of the whole
concatenated block. -/

theorem blockValue_cons (B s t v : Nat) (vs : List Nat) (h : vs ≠ []) :
    blockValue B s t (v :: vs)
      = v * B ^ ((vs.length - 1) * s + t) + blockValue B s t vs := by
  cases vs with
  | nil => exact absurd rfl h
  | cons w ws => rfl

theorem convert_foldl (base a : Nat) (l : List Nat) :
    l.foldl (fun n d => n * base + d) a = a * base ^ l.length + convert base l := by
  induction l generalizing a with
  | nil => simp [convert]
  | cons d l ih =>
    have hd : convert base (d :: l) = d * base ^ l.length + convert base l := by
      have := ih d
      simpa [convert] using this
    simp only [List.foldl_cons, ih (a * base + d), hd, List.length_cons]
    ring

theorem convert_append (base : Nat) (l1 l2 : List Nat) :
    convert base (l1 ++ l2) = convert base l1 * base ^ l2.length + convert base l2 := by
  show (l1 ++ l2).foldl (fun n d => n * base + d) 0 = _
  rw [List.foldl_append]
  exact convert_foldl base _ l2

theorem pairUp_length (base lb : Nat) : ∀ l : List Nat,
    (pairUp base lb l).1.length = (l.length + 1) / 2
  | [] => by simp [pairUp]
  | [x] => by simp [pairUp]
  | [x, y] => by simp [pairUp]
  | x :: y :: z :: rest => by
    have ih := pairUp_length base lb (z :: rest)
    simp only [pairUp, List.length_cons] at ih ⊢
    omega

theorem pairUp_snd (B s t : Nat) : ∀ l : List Nat, 2 ≤ l.length →
    (pairUp (B ^ s) (B ^ t) l).2 = B ^ (if l.length % 2 = 0 then t + s else t)
  | [], h => by simp at h
  | [x], h => by simp at h
  | [x, y], _ => by simp [pairUp, pow_add]
  | [x, y, z], _ => by simp [pairUp]
  | x :: y :: z :: w :: ws, _ => by
    have ih := pairUp_snd B s t (z :: w :: ws) (by simp)
    simp only [pairUp, List.length_cons] at ih ⊢
    rw [ih]
    rcases Nat.even_or_odd ws.length with ⟨m, hm⟩ | ⟨m, hm⟩
    · have c1 : (ws.length + 1 + 1) % 2 = 0 := by omega
      have c2 : (ws.length + 1 + 1 + 1 + 1) % 2 = 0 := by omega
      rw [if_pos c1, if_pos c2]
    · have c1 : ¬((ws.length + 1 + 1) % 2 = 0) := by omega
      have c2 : ¬((ws.length + 1 + 1 + 1 + 1) % 2 = 0) := by omega
      rw [if_neg c1, if_neg c2]

theorem pairUp_fst (B s t : Nat) : ∀ l : List Nat, 2 ≤ l.length →
    blockValue B (2 * s) (if l.length % 2 = 0 then t + s else t)
        (pairUp (B ^ s) (B ^ t) l).1
      = blockValue B s t l
  | [], h => by simp at h
  | [x], h => by simp at h
  | [x, y], _ => by
    simp [pairUp, blockValue]
  | [x, y, z], _ => by
    simp only [pairUp, blockValue, List.length_cons, List.length_nil]
    norm_num [pow_add]
    ring
  | x :: y :: z :: w :: ws, _ => by
    have ih := pairUp_fst B s t (z :: w :: ws) (by simp)
    have hlen := pairUp_length (B ^ s) (B ^ t) (z :: w :: ws)
    have hne : (pairUp (B ^ s) (B ^ t) (z :: w :: ws)).1 ≠ [] := by
      intro hnil
      rw [hnil] at hlen
      simp at hlen
      omega
    set r := (pairUp (B ^ s) (B ^ t) (z :: w :: ws)).1 with hr
    have hcons : (pairUp (B ^ s) (B ^ t) (x :: y :: z :: w :: ws)).1
        = (x * B ^ s + y) :: r := by
      simp [pairUp]
    rw [hcons, blockValue_cons B (2 * s) _ _ r hne,
      blockValue_cons B s t x (y :: z :: w :: ws) (by simp),
      blockValue_cons B s t y (z :: w :: ws) (by simp)]
    simp only [List.length_cons] at ih hlen ⊢
    rcases Nat.even_or_odd ws.length with ⟨m, hm⟩ | ⟨m, hm⟩
    · have c1 : (ws.length + 1 + 1) % 2 = 0 := by omega
      have c2 : (ws.length + 1 + 1 + 1 + 1) % 2 = 0 := by omega
      rw [if_pos c1] at ih
      rw [if_pos c2, ih]
      have hrlen : r.length = m + 1 := by omega
      rw [hrlen, hm]
      simp only [Nat.add_sub_cancel]
      have ex : (m + m + 1 + 1) * s + t = s + (m * (2 * s) + (t + s)) := by ring
      have ey : (m + m + 1) * s + t = m * (2 * s) + (t + s) := by ring
      rw [ex, ey, pow_add]
      ring
    · have c1 : ¬((ws.length + 1 + 1) % 2 = 0) := by omega
      have c2 : ¬((ws.length + 1 + 1 + 1 + 1) % 2 = 0) := by omega
      rw [if_neg c1] at ih
      rw [if_neg c2, ih]
      have hrlen : r.length = m + 2 := by omega
      rw [hrlen, hm]
      simp only [Nat.add_sub_cancel]
      have hc : m + 2 - 1 = m + 1 := by omega
      rw [hc]
      have ex : (2 * m + 1 + 1 + 1) * s + t = s + ((m + 1) * (2 * s) + t) := by ring
      have ey : (2 * m + 1 + 1) * s + t = (m + 1) * (2 * s) + t := by ring
      rw [ex, ey, pow_add]
      ring

theorem combineAux_eq (B : Nat) : ∀ (fuel s t : Nat) (l : List Nat), l ≠ [] →
    l.length ≤ fuel + 1 →
    combineAux fuel l (B ^ s) (B ^ t)
      = some (blockValue B s t l, B ^ ((l.length - 1) * s + t))
  | _, s, t, [], h, _ => absurd rfl h
  | _, s, t, [x], _, _ => by simp [combineAux, blockValue]
  | 0, s, t, x :: y :: rest, _, hlen => by simp at hlen
  | fuel + 1, s, t, x :: y :: rest, _, hlen => by
    have h2 : 2 ≤ (x :: y :: rest).length := by simp
    have hplen := pairUp_length (B ^ s) (B ^ t) (x :: y :: rest)
    have hne : (pairUp (B ^ s) (B ^ t) (x :: y :: rest)).1 ≠ [] := by
      intro hnil
      rw [hnil] at hplen
      simp at hplen
      omega
    have hlen2 : (pairUp (B ^ s) (B ^ t) (x :: y :: rest)).1.length ≤ fuel + 1 := by
      rw [hplen]
      simp only [List.length_cons] at hlen ⊢
      omega
    have hexp : ((pairUp (B ^ s) (B ^ t) (x :: y :: rest)).1.length - 1) * (2 * s)
        + (if (x :: y :: rest).length % 2 = 0 then t + s else t)
        = ((x :: y :: rest).length - 1) * s + t := by
      rw [hplen]
      simp only [List.length_cons]
      rcases Nat.even_or_odd rest.length with ⟨m, hm⟩ | ⟨m, hm⟩
      · have c : (rest.length + 1 + 1) % 2 = 0 := by omega
        rw [if_pos c, hm]
        have h1 : (m + m + 1 + 1 + 1) / 2 - 1 = m := by omega
        have h2' : m + m + 1 + 1 - 1 = m + m + 1 := by omega
        rw [h1, h2']
        ring
      · have c : ¬((rest.length + 1 + 1) % 2 = 0) := by omega
        rw [if_neg c, hm]
        have h1 : (2 * m + 1 + 1 + 1 + 1) / 2 - 1 = m + 1 := by omega
        have h2' : 2 * m + 1 + 1 + 1 - 1 = 2 * m + 1 + 1 := by omega
        rw [h1, h2']
        ring
    have hstep : combineAux (fuel + 1) (x :: y :: rest) (B ^ s) (B ^ t)
        = combineAux fuel (pairUp (B ^ s) (B ^ t) (x :: y :: rest)).1
            (B ^ s * B ^ s) (pairUp (B ^ s) (B ^ t) (x :: y :: rest)).2 := by
      simp [combineAux]
    have hbb : B ^ s * B ^ s = B ^ (2 * s) := by rw [two_mul, pow_add]
    rw [hstep, hbb, pairUp_snd B s t _ h2,
      combineAux_eq B fuel (2 * s) (if (x :: y :: rest).length % 2 = 0 then t + s else t)
        _ hne hlen2,
      pairUp_fst B s t _ h2, hexp]

/-- `combine` on a non-empty list of block values computes the value and the
weight of the concatenated block. -/
theorem combine_eq (B s t : Nat) (l : List Nat) (h : l ≠ []) :
    combine l (B ^ s) (B ^ t)
      = some (blockValue B s t l, B ^ ((l.length - 1) * s + t)) :=
  combineAux_eq B l.length s t l h (by omega)

theorem Blocks.ne_nil {L : Nat} {cs : List (List Nat)} (h : Blocks L cs) : cs ≠ [] := by
  cases h <;> simp

theorem chunkListAux_spec (L : Nat) (hL : 1 ≤ L) : ∀ (fuel : Nat) (l : List Nat), l ≠ [] →
    l.length ≤ fuel →
    Blocks L (chunkListAux L fuel l) ∧ concatL (chunkListAux L fuel l) = l
  | 0, l, hne, hlen => by
    cases l with
    | nil => exact absurd rfl hne
    | cons d ds => simp at hlen
  | fuel + 1, [], hne, _ => absurd rfl hne
  | fuel + 1, d :: ds, _, hlen => by
    by_cases hdrop : (d :: ds).drop L = []
    · have hlenL : (d :: ds).length ≤ L := by
        by_contra hgt
        have : (d :: ds).length - L ≠ 0 := by omega
        rw [← List.length_drop, hdrop] at this
        simp at this
      have htake : (d :: ds).take L = d :: ds := List.take_of_length_le hlenL
      have hnil0 : chunkListAux L fuel ([] : List Nat) = [] := by cases fuel <;> rfl
      show Blocks L ((d :: ds).take L :: chunkListAux L fuel ((d :: ds).drop L)) ∧
        concatL ((d :: ds).take L :: chunkListAux L fuel ((d :: ds).drop L)) = d :: ds
      rw [hdrop, hnil0, htake]
      constructor
      · exact Blocks.single (d :: ds) (by simp) hlenL
      · simp [concatL]
    · have hLlt : L < (d :: ds).length := by
        by_contra hle
        exact hdrop (List.drop_eq_nil_of_le (by omega))
      have ih := chunkListAux_spec L hL fuel ((d :: ds).drop L) hdrop
        (by rw [List.length_drop]; omega)
      show Blocks L ((d :: ds).take L :: chunkListAux L fuel ((d :: ds).drop L)) ∧ _
      constructor
      · exact Blocks.cons _ _ (by rw [List.length_take]; omega) ih.1
      · show (d :: ds).take L ++ concatL (chunkListAux L fuel ((d :: ds).drop L)) = d :: ds
        rw [ih.2, List.take_append_drop]

theorem chunkList_spec (L : Nat) (hL : 1 ≤ L) (l : List Nat) (hne : l ≠ []) :
    Blocks L (chunkList L l) ∧ concatL (chunkList L l) = l :=
  chunkListAux_spec L hL l.length l hne le_rfl

theorem blocks_blockValue (base L : Nat) {cs : List (List Nat)} (h : Blocks L cs) :
    blockValue base L (lastLen cs) (cs.map (convert base)) = convert base (concatL cs)
    ∧ (cs.length - 1) * L + lastLen cs = (concatL cs).length := by
  induction h with
  | single c hne hlen => simp [blockValue, lastLen, concatL]
  | cons c rest hcL hrest ih =>
    obtain ⟨r, rs, hr⟩ := List.exists_cons_of_ne_nil (Blocks.ne_nil hrest)
    subst hr
    have hll : lastLen (c :: r :: rs) = lastLen (r :: rs) := rfl
    have hcc : concatL (c :: r :: rs) = c ++ concatL (r :: rs) := rfl
    constructor
    · rw [List.map_cons, hll,
        blockValue_cons base L (lastLen (r :: rs)) (convert base c) _ (by simp),
        List.length_map, ih.2, ih.1, hcc, convert_append]
    · rw [hll, hcc, List.length_append, ← ih.2, hcL]
      simp only [List.length_cons, Nat.add_sub_cancel]
      ring

/-- A worker's whole computation: on a non-empty digit list it produces the
Horner value of its digits together with the weight `base ^ ndigits` of its
block. -/
theorem Worker.start_eq (L base : Nat) (hL : 1 ≤ L) (digits : List Nat)
    (hne : digits ≠ []) :
    Worker.start L base digits = some (convert base digits, base ^ digits.length) := by
  obtain ⟨hblocks, hconcat⟩ := chunkList_spec L hL digits hne
  obtain ⟨c, cs, hcs⟩ := List.exists_cons_of_ne_nil (Blocks.ne_nil hblocks)
  have hstart : Worker.start L base digits
      = combine ((c :: cs).map (convert base)) (base ^ L) (base ^ lastLen (c :: cs)) := by
    unfold Worker.start
    rw [hcs]
  rw [hcs] at hblocks hconcat
  obtain ⟨hv, hlen⟩ := blocks_blockValue base L hblocks
  rw [hstart, combine_eq base L (lastLen (c :: cs)) _ (by simp), hv, hconcat,
    List.length_map, hlen, hconcat]

theorem pairResults_snd_prod : ∀ l : List (Nat × Nat),
    ((pairResults l).map Prod.snd).prod = (l.map Prod.snd).prod
  | [] => by simp [pairResults]
  | [r] => by simp [pairResults]
  | r0 :: r1 :: rest => by
    have ih := pairResults_snd_prod rest
    simp [pairResults, ih]
    ring

theorem pairResults_value : ∀ l : List (Nat × Nat),
    resultsValue (pairResults l) = resultsValue l
  | [] => by simp [pairResults]
  | [r] => by simp [pairResults]
  | r0 :: r1 :: rest => by
    have ih := pairResults_value rest
    have hp := pairResults_snd_prod rest
    simp [pairResults, resultsValue, ih, hp]
    ring

theorem pairResults_length : ∀ l : List (Nat × Nat),
    (pairResults l).length = (l.length + 1) / 2
  | [] => by simp [pairResults]
  | [r] => by simp [pairResults]
  | r0 :: r1 :: rest => by
    have ih := pairResults_length rest
    simp [pairResults, ih]
    omega

theorem combineResultsAux_eq : ∀ (fuel : Nat) (l : List (Nat × Nat)), l ≠ [] →
    l.length ≤ fuel + 1 → combineResultsAux fuel l = some (resultsValue l)
  | _, [], h, _ => absurd rfl h
  | _, [r], _, _ => by simp [combineResultsAux, resultsValue]
  | 0, r0 :: r1 :: rest, _, hlen => by simp at hlen
  | fuel + 1, r0 :: r1 :: rest, _, hlen => by
    have hplen := pairResults_length (r0 :: r1 :: rest)
    have hne : pairResults (r0 :: r1 :: rest) ≠ [] := by
      intro hnil
      rw [hnil] at hplen
      simp at hplen
      omega
    have hlen2 : (pairResults (r0 :: r1 :: rest)).length ≤ fuel + 1 := by
      rw [hplen]
      simp only [List.length_cons] at hlen ⊢
      omega
    have hstep : combineResultsAux (fuel + 1) (r0 :: r1 :: rest)
        = combineResultsAux fuel (pairResults (r0 :: r1 :: rest)) := by
      simp [combineResultsAux]
    rw [hstep, combineResultsAux_eq fuel _ hne hlen2, pairResults_value]

/-- The inter-worker reduction tree computes the value represented by the
ordered worker results. -/
theorem combine_results_eq (l : List (Nat × Nat)) (h : l ≠ []) :
    combine_results l = some (resultsValue l) :=
  combineResultsAux_eq l.length l h (by omega)

theorem snd_prod_slices (base : Nat) : ∀ ss : List (List Nat),
    ((ss.map fun s => (convert base s, base ^ s.length)).map Prod.snd).prod
      = base ^ (concatL ss).length
  | [] => by simp [concatL]
  | t :: ts => by
    have ih := snd_prod_slices base ts
    rw [List.map_cons, List.map_cons, List.prod_cons, ih]
    show base ^ t.length * base ^ (concatL ts).length = base ^ (concatL (t :: ts)).length
    rw [show concatL (t :: ts) = t ++ concatL ts from rfl, List.length_append, pow_add]

theorem resultsValue_slices (base : Nat) : ∀ ss : List (List Nat),
    resultsValue (ss.map fun s => (convert base s, base ^ s.length))
      = convert base (concatL ss)
  | [] => by simp [resultsValue, concatL, convert]
  | s :: ss => by
    have ih := resultsValue_slices base ss
    have hprod := snd_prod_slices base ss
    simp only [List.map_cons, resultsValue, hprod, ih]
    show convert base s * base ^ (concatL ss).length + convert base (concatL ss)
      = convert base (s ++ concatL ss)
    rw [convert_append]

theorem collectResults_eq (L base : Nat) (hL : 1 ≤ L) : ∀ slices : List (List Nat),
    (∀ s ∈ slices, s ≠ []) →
    collectResults L base slices
      = some (slices.map fun s => (convert base s, base ^ s.length))
  | [], _ => by simp [collectResults]
  | s :: ss, hall => by
    have hs : s ≠ [] := hall s (by simp)
    have ih := collectResults_eq L base hL ss (fun t ht => hall t (by simp [ht]))
    simp [collectResults, Worker.start_eq L base hL s hs, ih]

theorem slices_concat (w : Nat) : ∀ (k : Nat) (l : List Nat), l.length ≤ k * w →
    concatL ((List.range k).map fun i => (l.drop (i * w)).take w) = l
  | 0, l, hlen => by
    simp only [Nat.zero_mul, Nat.le_zero] at hlen
    have : l = [] := List.eq_nil_of_length_eq_zero hlen
    simp [this, concatL]
  | k + 1, l, hlen => by
    rw [Nat.succ_mul] at hlen
    have ih := slices_concat w k (l.drop w) (by rw [List.length_drop]; omega)
    rw [List.range_succ_eq_map, List.map_cons, List.map_map]
    have hmap : (List.range k).map ((fun i => (l.drop (i * w)).take w) ∘ (· + 1))
        = (List.range k).map fun i => ((l.drop w).drop (i * w)).take w := by
      apply List.map_congr_left
      intro i _
      show (l.drop ((i + 1) * w)).take w = ((l.drop w).drop (i * w)).take w
      rw [List.drop_drop, Nat.succ_mul, Nat.add_comm]
    rw [hmap]
    show (l.drop (0 * w)).take w ++ concatL _ = l
    rw [ih, Nat.zero_mul, List.drop_zero, List.take_append_drop]

theorem slice_mem_ne_nil {l : List Nat} {w k : Nat} (hw : 1 ≤ w)
    (hcov : (k - 1) * w < l.length) :
    ∀ s ∈ (List.range k).map (fun i => (l.drop (i * w)).take w), s ≠ [] := by
  intro s hs
  rw [List.mem_map] at hs
  obtain ⟨i, hi, hsi⟩ := hs
  rw [List.mem_range] at hi
  have h1 : i * w ≤ (k - 1) * w := Nat.mul_le_mul_right w (by omega)
  intro hnil
  rw [← hsi] at hnil
  have hlen := congrArg List.length hnil
  rw [List.length_take, List.length_drop] at hlen
  simp at hlen
  omega

/-- The whole forward pipeline: whenever the source terminates — non-empty
input and no worker handed an empty range — it returns the Horner value of
the digit sequence, for every chunk size `L ≥ 1` and every cpu count. -/
theorem digitsToNumberWith_eq (L : Nat) (digits : List Nat) (base cpu : Nat)
    (hL : 1 ≤ L) (hne : digits ≠ []) (hcpu : 1 ≤ cpu)
    (hcov : (nworkersFor cpu digits.length - 1)
        * ((digits.length + nworkersFor cpu digits.length - 1)
            / nworkersFor cpu digits.length)
        < digits.length) :
    digitsToNumberWith L digits base cpu = some (convert base digits) := by
  have hlen1 : 1 ≤ digits.length := List.length_pos.mpr hne
  have hnw1 : 1 ≤ nworkersFor cpu digits.length := by
    unfold nworkersFor
    have h4 : cpu / 4 < cpu := Nat.div_lt_self (by omega) (by omega)
    omega
  set nw := nworkersFor cpu digits.length with hnw
  set dpw := (digits.length + nw - 1) / nw with hdpw
  have hdpw1 : 1 ≤ dpw := by
    rw [hdpw]
    rw [Nat.le_div_iff_mul_le (by omega : 0 < nw)]
    omega
  have hcover : digits.length ≤ nw * dpw := by
    have hdm := Nat.div_add_mod (digits.length + nw - 1) nw
    have hr := Nat.mod_lt (digits.length + nw - 1) (show 0 < nw by omega)
    rw [hdpw]
    omega
  have hslices : workerSlices digits nw
      = (List.range nw).map fun i => (digits.drop (i * dpw)).take dpw := rfl
  unfold digitsToNumberWith
  rw [if_neg (by omega : ¬ nworkersFor cpu digits.length = 0)]
  rw [← hnw, hslices,
    collectResults_eq L base hL _ (slice_mem_ne_nil hdpw1 hcov)]
  show combine_results _ = _
  rw [combine_results_eq _ (by
    intro hmap0
    simp only [List.map_eq_nil_iff, List.range_eq_nil] at hmap0
    omega)]
  rw [resultsValue_slices, slices_concat dpw nw digits hcover]

/-- `blockValue` written as the explicit weighted sum
`∑ i < k - 1, vᵢ * B ^ ((k - 2 - i) * s + t)` plus the final block. -/
theorem blockValue_eq_sum (B s t : Nat) : ∀ vs : List Nat, vs ≠ [] →
    blockValue B s t vs
      = (∑ i ∈ Finset.range (vs.length - 1),
          vs.getD i 0 * B ^ ((vs.length - 2 - i) * s + t))
        + vs.getD (vs.length - 1) 0
  | [], h => absurd rfl h
  | [v], _ => by simp [blockValue]
  | v :: w :: vs, _ => by
    have ih := blockValue_eq_sum B s t (w :: vs) (by simp)
    rw [blockValue_cons B s t v (w :: vs) (by simp), ih]
    simp only [List.length_cons, Nat.add_sub_cancel]
    rw [Finset.sum_range_succ']
    have hf0 : (v :: w :: vs).getD 0 0 * B ^ ((vs.length + 1 + 1 - 2 - 0) * s + t)
        = v * B ^ (vs.length * s + t) := by
      have he : vs.length + 1 + 1 - 2 - 0 = vs.length := by omega
      rw [he]
      rfl
    have hfi : ∀ i ∈ Finset.range vs.length,
        (v :: w :: vs).getD (i + 1) 0 * B ^ ((vs.length + 1 + 1 - 2 - (i + 1)) * s + t)
          = (w :: vs).getD i 0 * B ^ ((vs.length + 1 - 2 - i) * s + t) := by
      intro i _
      have he : vs.length + 1 + 1 - 2 - (i + 1) = vs.length + 1 - 2 - i := by omega
      rw [he, List.getD_cons_succ]
    rw [Finset.sum_congr rfl hfi, hf0,
      show (v :: w :: vs).getD (vs.length + 1) 0 = (w :: vs).getD vs.length 0 from
        List.getD_cons_succ]
    ring

end DigitsToNumber


namespace NumberToDigits

theorem leafDigits_length (base : Nat) : ∀ (k n : Nat), (leafDigits base k n).length = k
  | 0, _ => rfl
  | k + 1, n => by
    simp [leafDigits, leafDigits_length base k (n / base)]

/-- Splitting a leaf conversion at digit position `l` is division with
remainder by `base ^ l`. -/
theorem leafDigits_split (base : Nat) : ∀ (l u n : Nat),
    leafDigits base (u + l) n
      = leafDigits base u (n / base ^ l) ++ leafDigits base l (n % base ^ l)
  | 0, u, n => by simp [leafDigits]
  | l + 1, u, n => by
    have ih := leafDigits_split base l u (n / base)
    show leafDigits base (u + l) (n / base) ++ [n % base] = _
    rw [ih, List.append_assoc]
    have h0 : n / base / base ^ l = n / base ^ (l + 1) := by
      rw [Nat.div_div_eq_div_mul, ← pow_succ']
    have h1 : (n % base ^ (l + 1)) / base = n / base % base ^ l := by
      rw [pow_succ']
      exact Nat.mod_mul_right_div_self n base (base ^ l)
    have h2 : (n % base ^ (l + 1)) % base = n % base := by
      rw [pow_succ']
      exact Nat.mod_mul_right_mod n base (base ^ l)
    show leafDigits base u (n / base / base ^ l)
        ++ (leafDigits base l (n / base % base ^ l) ++ [n % base])
      = leafDigits base u (n / base ^ (l + 1))
        ++ (leafDigits base l ((n % base ^ (l + 1)) / base) ++ [(n % base ^ (l + 1)) % base])
    rw [h0, h1, h2]

/-- Horner evaluation is a left inverse of the leaf digit extraction, up to
the block capacity. -/
theorem convert_leafDigits (base : Nat) : ∀ (k n : Nat),
    DigitsToNumber.convert base (leafDigits base k n) = n % base ^ k
  | 0, n => by simp [leafDigits, DigitsToNumber.convert, Nat.mod_one]
  | k + 1, n => by
    have ih := convert_leafDigits base k (n / base)
    show DigitsToNumber.convert base (leafDigits base k (n / base) ++ [n % base]) = _
    rw [DigitsToNumber.convert_append, ih]
    have hc : DigitsToNumber.convert base [n % base] = n % base := by
      simp [DigitsToNumber.convert]
    rw [hc, List.length_singleton, pow_one, pow_succ', Nat.mod_mul]
    ring

theorem decLoopAux_stop (base n : Nat) : ∀ (fuel m : Nat) (nd : Int), ¬(n < m) →
    decLoopAux base n fuel m nd = nd
  | 0, _, _, _ => rfl
  | fuel + 1, m, nd, h => by simp [decLoopAux, h]

theorem incLoopAux_stop (base n : Nat) : ∀ (fuel m : Nat) (nd : Int), ¬(m ≤ n) →
    incLoopAux base n fuel m nd = nd
  | 0, _, _, _ => rfl
  | fuel + 1, m, nd, h => by simp [incLoopAux, h]

/-- The downward correction loop, started anywhere above the target power,
lands on `Nat.log base n`: its result does not depend on the estimate. -/
theorem decLoopAux_log (base n : Nat) (hb : 2 ≤ base) (hn : 1 ≤ n) :
    ∀ (j fuel : Nat) (nd : Int), n < base ^ j → j ≤ fuel →
    decLoopAux base n fuel (base ^ j) nd = nd - j + Nat.log base n
  | 0, fuel, nd, hlt, _ => by
    rw [pow_zero] at hlt
    omega
  | j + 1, fuel, nd, hlt, hfuel => by
    cases fuel with
    | zero => omega
    | succ f =>
      have hstep : decLoopAux base n (f + 1) (base ^ (j + 1)) nd
          = decLoopAux base n f (base ^ (j + 1) / base) (nd - 1) := by
        simp [decLoopAux, hlt]
      have hdiv : base ^ (j + 1) / base = base ^ j := by
        rw [pow_succ]
        exact Nat.mul_div_cancel _ (by omega)
      rw [hstep, hdiv]
      by_cases hj : n < base ^ j
      · rw [decLoopAux_log base n hb hn j f (nd - 1) hj (by omega)]
        omega
      · rw [decLoopAux_stop base n f _ _ hj]
        have hlog : Nat.log base n = j :=
          Nat.log_eq_of_pow_le_of_lt_pow (by omega) hlt
        omega

/-- The upward correction loop, started anywhere at or below the target
power, lands one above `Nat.log base n`. -/
theorem incLoopAux_log (base n : Nat) (hb : 2 ≤ base) (hn : 1 ≤ n) :
    ∀ (fuel j : Nat) (nd : Int), base ^ j ≤ n → Nat.log base n + 1 - j ≤ fuel →
    incLoopAux base n fuel (base ^ j) nd = nd + (Nat.log base n + 1) - j
  | 0, j, nd, hle, hfuel => by
    have hj : j ≤ Nat.log base n := (Nat.pow_le_iff_le_log (by omega) (by omega)).mp hle
    omega
  | fuel + 1, j, nd, hle, hfuel => by
    have hstep : incLoopAux base n (fuel + 1) (base ^ j) nd
        = incLoopAux base n fuel (base ^ j * base) (nd + 1) := by
      simp [incLoopAux, hle]
    have hpow : base ^ j * base = base ^ (j + 1) := (pow_succ base j).symm
    rw [hstep, hpow]
    have hj : j ≤ Nat.log base n := (Nat.pow_le_iff_le_log (by omega) (by omega)).mp hle
    by_cases hle2 : base ^ (j + 1) ≤ n
    · have hj1 : j + 1 ≤ Nat.log base n :=
        (Nat.pow_le_iff_le_log (by omega) (by omega)).mp hle2
      rw [incLoopAux_log base n hb hn fuel (j + 1) (nd + 1) hle2 (by omega)]
      omega
    · rw [incLoopAux_stop base n fuel _ _ (by omega)]
      have hlog : Nat.log base n = j :=
        Nat.log_eq_of_pow_le_of_lt_pow hle (by omega)
      omega

/-- `get_ndigits` computes `log base n + 1`, the minimal digit count, for
every positive `n`, regardless of the starting estimate's value. -/
theorem get_ndigits_eq_log (n base : Nat) (hb : 2 ≤ base) (hn : 1 ≤ n) :
    get_ndigits n base = (Nat.log base n + 1 : Nat) := by
  unfold get_ndigits
  by_cases hlt : n < base ^ ndigitsEstimate n base
  · rw [if_pos hlt,
      decLoopAux_log base n hb hn (ndigitsEstimate n base) (ndigitsEstimate n base + 1)
        (ndigitsEstimate n base) hlt (by omega)]
    push_cast
    omega
  · rw [if_neg hlt,
      incLoopAux_log base n hb hn (n + 1) (ndigitsEstimate n base)
        (ndigitsEstimate n base) (by omega)
        (by have := Nat.log_le_self base n; omega)]
    have hj : ndigitsEstimate n base ≤ Nat.log base n :=
      (Nat.pow_le_iff_le_log (by omega) (by omega)).mp (by omega)
    push_cast
    omega

theorem get_ndigits_zero (base : Nat) (_hb : 2 ≤ base) : get_ndigits 0 base = 0 := by
  have hest : ndigitsEstimate 0 base = 0 := by
    show estAux base (2 ^ bit_length 0) (bit_length 0 + 1) 0 = 0
    show estAux base (2 ^ 0) (0 + 1) 0 = 0
    simp [estAux]
  unfold get_ndigits
  rw [hest, pow_zero, if_pos (by omega : (0 : Nat) < 1)]
  show decLoopAux base 0 (0 + 1) 1 0 + 1 = 0
  simp [decLoopAux]

theorem concatDigits_append : ∀ rs1 rs2 : List Result,
    concatDigits (rs1 ++ rs2) = concatDigits rs1 ++ concatDigits rs2
  | [], _ => rfl
  | r :: rs, rs2 => by
    simp [concatDigits, concatDigits_append rs rs2]

theorem TilesFrom_append : ∀ (rs1 rs2 : List Result) (i : Nat), TilesFrom i rs1 →
    TilesFrom (i + (concatDigits rs1).length) rs2 → TilesFrom i (rs1 ++ rs2)
  | [], rs2, i, _, h2 => by
    show TilesFrom i rs2
    have h0 : (concatDigits ([] : List Result)).length = 0 := rfl
    rw [h0] at h2
    simpa using h2
  | r :: rs, rs2, i, h1, h2 => by
    obtain ⟨hidx, htail⟩ := h1
    refine ⟨hidx, ?_⟩
    apply TilesFrom_append rs rs2
    · exact htail
    · have hlen : i + (concatDigits (r :: rs)).length
          = i + r.digits.length + (concatDigits rs).length := by
        show i + (r.digits ++ concatDigits rs).length = _
        rw [List.length_append]
        omega
      rw [hlen] at h2
      exact h2

theorem process_internal_children (base : Nat) (t : Task) :
    process_internal base t
      = [⟨t.number / base ^ (t.ndigits / 2), t.ndigits - t.ndigits / 2,
          t.index, t.depth - 1⟩,
         ⟨t.number % base ^ (t.ndigits / 2), t.ndigits / 2,
          t.index + (t.ndigits - t.ndigits / 2), t.depth - 1⟩] := rfl

/-- The leaf results of a task's whole split tree: their digit slices
concatenate to the leaf conversion of the task itself, and they tile
consecutive positions starting at the task's output index. -/
theorem runTaskAux_spec (base : Nat) : ∀ (d : Nat) (t : Task),
    concatDigits (runTaskAux base d t) = leafDigits base t.ndigits t.number
    ∧ TilesFrom t.index (runTaskAux base d t)
  | 0, t => by
    constructor
    · show (process_leaf base t).digits ++ concatDigits [] = _
      show leafDigits base t.ndigits t.number ++ [] = _
      simp
    · exact ⟨rfl, trivial⟩
  | d + 1, t => by
    have ihu := runTaskAux_spec base d
      ⟨t.number / base ^ (t.ndigits / 2), t.ndigits - t.ndigits / 2, t.index, t.depth - 1⟩
    have ihv := runTaskAux_spec base d
      ⟨t.number % base ^ (t.ndigits / 2), t.ndigits / 2,
        t.index + (t.ndigits - t.ndigits / 2), t.depth - 1⟩
    have hrun : runTaskAux base (d + 1) t
        = runTaskAux base d
            ⟨t.number / base ^ (t.ndigits / 2), t.ndigits - t.ndigits / 2,
              t.index, t.depth - 1⟩
          ++ runTaskAux base d
            ⟨t.number % base ^ (t.ndigits / 2), t.ndigits / 2,
              t.index + (t.ndigits - t.ndigits / 2), t.depth - 1⟩ := by
      show (match process_internal base t with
        | [upper, lower] => runTaskAux base d upper ++ runTaskAux base d lower
        | _ => []) = _
      rw [process_internal_children base t]
    rw [hrun]
    constructor
    · rw [concatDigits_append, ihu.1, ihv.1]
      have h1 : t.ndigits - t.ndigits / 2 + t.ndigits / 2 = t.ndigits := by omega
      calc leafDigits base (t.ndigits - t.ndigits / 2) (t.number / base ^ (t.ndigits / 2))
            ++ leafDigits base (t.ndigits / 2) (t.number % base ^ (t.ndigits / 2))
          = leafDigits base (t.ndigits - t.ndigits / 2 + t.ndigits / 2) t.number :=
            (leafDigits_split base (t.ndigits / 2) (t.ndigits - t.ndigits / 2) t.number).symm
        _ = leafDigits base t.ndigits t.number := by rw [h1]
    · apply TilesFrom_append
      · exact ihu.2
      · rw [ihu.1, leafDigits_length]
        exact ihv.2

theorem set_at_append : ∀ (A : List Nat) (c : Nat) (R : List Nat) (d : Nat),
    (A ++ c :: R).set A.length d = A ++ d :: R
  | [], _, _, _ => rfl
  | a :: A, c, R, d => by
    show a :: (A ++ c :: R).set A.length d = a :: (A ++ d :: R)
    rw [set_at_append A c R d]

/-- Writing `ds` over the middle section of the array replaces it. -/
theorem writeAt_parts : ∀ (ds A C B : List Nat), C.length = ds.length →
    writeAt (A ++ C ++ B) A.length ds = A ++ ds ++ B
  | [], A, C, B, h => by
    cases C with
    | nil => rfl
    | cons c C' => simp at h
  | d :: ds, A, C, B, h => by
    cases C with
    | nil => simp at h
    | cons c C' =>
      show writeAt ((A ++ (c :: C') ++ B).set A.length d) (A.length + 1) ds
        = A ++ (d :: ds) ++ B
      have hset : (A ++ (c :: C') ++ B).set A.length d = (A ++ [d]) ++ C' ++ B := by
        rw [List.append_assoc, show (c :: C') ++ B = c :: (C' ++ B) from rfl,
          set_at_append A c (C' ++ B) d]
        simp
      have hlen : A.length + 1 = (A ++ [d]).length := by simp
      rw [hset, hlen, writeAt_parts ds (A ++ [d]) C' B (by simpa using h)]
      simp

/-- Splicing a tiling list of results into an array overwrites exactly the
tiled section with the concatenation of the slices. -/
theorem foldl_apply_tiles : ∀ (rs : List Result) (A C B : List Nat),
    TilesFrom A.length rs → C.length = (concatDigits rs).length →
    rs.foldl apply_result (A ++ C ++ B) = A ++ concatDigits rs ++ B
  | [], A, C, B, _, hC => by
    cases C with
    | nil => rfl
    | cons c C' => simp [concatDigits] at hC
  | r :: rs, A, C, B, ht, hC => by
    obtain ⟨hidx, htail⟩ := ht
    have hClen : r.digits.length ≤ C.length := by
      rw [hC]
      show _ ≤ (r.digits ++ concatDigits rs).length
      rw [List.length_append]
      omega
    show List.foldl apply_result (apply_result (A ++ C ++ B) r) rs = _
    have happ : apply_result (A ++ C ++ B) r
        = A ++ r.digits ++ C.drop r.digits.length ++ B := by
      unfold apply_result
      rw [hidx]
      have hsplit : A ++ C ++ B
          = A ++ C.take r.digits.length ++ (C.drop r.digits.length ++ B) := by
        conv_lhs => rw [← List.take_append_drop r.digits.length C]
        simp only [List.append_assoc]
      rw [hsplit, writeAt_parts r.digits A (C.take r.digits.length)
        (C.drop r.digits.length ++ B) (by rw [List.length_take]; omega)]
      simp only [List.append_assoc]
    have hcc : C.length = r.digits.length + (concatDigits rs).length := by
      rw [hC]
      show (r.digits ++ concatDigits rs).length = _
      rw [List.length_append]
    rw [happ, foldl_apply_tiles rs (A ++ r.digits) (C.drop r.digits.length) B
      (by rw [List.length_append]; exact htail)
      (by rw [List.length_drop]; omega)]
    show A ++ r.digits ++ concatDigits rs ++ B = A ++ (r.digits ++ concatDigits rs) ++ B
    simp [List.append_assoc]

/-- `number_to_digits` produces exactly the `ndigits`-digit leaf conversion
of `n`, where `ndigits` is the value computed by `get_ndigits`. -/
theorem number_to_digits_eq (n base : Nat) :
    number_to_digits n base = leafDigits base (rootTask n base).ndigits n := by
  unfold number_to_digits run_task
  have hspec := runTaskAux_spec base (rootTask n base).depth (rootTask n base)
  have harr : List.replicate (rootTask n base).ndigits 0
      = ([] : List Nat) ++ List.replicate (rootTask n base).ndigits 0 ++ [] := by simp
  rw [harr, foldl_apply_tiles _ [] _ []
    (by exact hspec.2)
    (by rw [hspec.1, leafDigits_length, List.length_replicate])]
  rw [hspec.1]
  show [] ++ leafDigits base (rootTask n base).ndigits n ++ [] = _
  simp

theorem rootTask_ndigits_pos (n base : Nat) (hb : 2 ≤ base) (hn : 1 ≤ n) :
    (rootTask n base).ndigits = Nat.log base n + 1 := by
  show (get_ndigits n base).toNat = _
  rw [get_ndigits_eq_log n base hb hn]
  simp

theorem rootTask_ndigits_zero (base : Nat) (hb : 2 ≤ base) :
    (rootTask 0 base).ndigits = 0 := by
  show (get_ndigits 0 base).toNat = 0
  rw [get_ndigits_zero base hb]
  rfl

/-- Splitting preserves the capacity predicate `number < base ^ ndigits` for
both children. -/
theorem process_internal_preserves (base : Nat) (hb : 2 ≤ base) {t u : Task}
    (ht : t.number < base ^ t.ndigits) (hu : u ∈ process_internal base t) :
    u.number < base ^ u.ndigits := by
  rw [process_internal_children base t] at hu
  simp only [List.mem_cons, List.not_mem_nil, or_false] at hu
  rcases hu with hu | hu
  · subst hu
    show t.number / base ^ (t.ndigits / 2) < base ^ (t.ndigits - t.ndigits / 2)
    rw [Nat.div_lt_iff_lt_mul (Nat.pow_pos (by omega))]
    calc t.number < base ^ t.ndigits := ht
      _ ≤ base ^ (t.ndigits - t.ndigits / 2) * base ^ (t.ndigits / 2) := by
          rw [← pow_add]
          have hsum : t.ndigits - t.ndigits / 2 + t.ndigits / 2 = t.ndigits := by omega
          rw [hsum]
  · subst hu
    show t.number % base ^ (t.ndigits / 2) < base ^ (t.ndigits / 2)
    exact Nat.mod_lt _ (Nat.pow_pos (by omega))

/-- The capacity invariant: every reachable task's number fits in its
`ndigits` digits. -/
theorem reachable_lt (n base : Nat) (hb : 2 ≤ base) {t : Task}
    (h : Reachable base (rootTask n base) t) : t.number < base ^ t.ndigits := by
  induction h with
  | refl =>
    show n < base ^ (rootTask n base).ndigits
    rcases Nat.eq_zero_or_pos n with hn | hn
    · subst hn
      rw [rootTask_ndigits_zero base hb]
      simp
    · rw [rootTask_ndigits_pos n base hb hn]
      exact Nat.lt_pow_succ_log_self (by omega) n
  | split t u ht hd hu ih =>
    exact process_internal_preserves base hb ih hu

/-- Any reachable task's leaf conversion reproduces its number exactly: no
high digits are truncated. -/
theorem reachable_leaf_exact (n base : Nat) (hb : 2 ≤ base) {t : Task}
    (h : Reachable base (rootTask n base) t) :
    DigitsToNumber.convert base (process_leaf base t).digits = t.number := by
  have hlt := reachable_lt n base hb h
  show DigitsToNumber.convert base (leafDigits base t.ndigits t.number) = t.number
  rw [convert_leafDigits, Nat.mod_eq_of_lt hlt]

theorem number_to_digits_pos_eq (n base : Nat) (hb : 2 ≤ base) (hn : 1 ≤ n) :
    number_to_digits n base = leafDigits base (Nat.log base n + 1) n := by
  rw [number_to_digits_eq, rootTask_ndigits_pos n base hb hn]

/-- The leading digit of a positive number's digit sequence. -/
theorem leafDigits_head_pos (n base : Nat) (hb : 2 ≤ base) (hn : 1 ≤ n) :
    (leafDigits base (Nat.log base n + 1) n).head? = some (n / base ^ Nat.log base n)
    ∧ 1 ≤ n / base ^ Nat.log base n := by
  have hd : n / base ^ Nat.log base n < base := by
    rw [Nat.div_lt_iff_lt_mul (Nat.pow_pos (by omega)), ← pow_succ']
    exact Nat.lt_pow_succ_log_self (by omega) n
  have h1 : 1 ≤ n / base ^ Nat.log base n :=
    (Nat.one_le_div_iff (Nat.pow_pos (by omega))).mpr (Nat.pow_log_le_self base (by omega))
  constructor
  · have hsplit := leafDigits_split base (Nat.log base n) 1 n
    rw [Nat.add_comm 1 (Nat.log base n)] at hsplit
    rw [hsplit]
    show (leafDigits base 0 (n / base ^ Nat.log base n / base)
        ++ [n / base ^ Nat.log base n % base]
        ++ leafDigits base (Nat.log base n) (n % base ^ Nat.log base n)).head? = _
    show (([] : List Nat) ++ [n / base ^ Nat.log base n % base] ++ _).head? = _
    rw [List.nil_append]
    show some (n / base ^ Nat.log base n % base) = _
    rw [Nat.mod_eq_of_lt hd]
  · exact h1

end NumberToDigits

/-! ### The claims -/

/-- C1 (counterexample): the round trip fails at `n = 0`.
`number_to_digits(0, 10)` returns the empty digit sequence (its digit count
computation yields 0), and `digits_to_number` of an empty sequence spawns 0
workers and crashes in `(ndigits + nworkers - 1) // nworkers` with a
ZeroDivisionError (modelled `none`) — here on a 4-cpu machine. -/
theorem round_trip_zero_counterexample :
    NumberToDigits.number_to_digits 0 10 = []
    ∧ DigitsToNumber.digits_to_number (NumberToDigits.number_to_digits 0 10) 10 4
        = none := by
  constructor <;> decide

/-- C1 (amended): for every positive `n`, every base ≥ 2, and every machine
cpu count whose derived worker partition of the resulting digit sequence
gives each worker a non-empty slice, the round trip
`digits_to_number(number_to_digits(n, b), b)` returns exactly `n`.  (At
`n = 0` the pipeline crashes instead, and worker counts that produce an
empty slice deadlock — see the counterexample and C9.) -/
theorem round_trip (n base cpu : Nat) (hb : 2 ≤ base) (hn : 1 ≤ n) (hcpu : 1 ≤ cpu)
    (hcov : (DigitsToNumber.nworkersFor cpu
          (NumberToDigits.number_to_digits n base).length - 1)
        * (((NumberToDigits.number_to_digits n base).length
              + DigitsToNumber.nworkersFor cpu
                  (NumberToDigits.number_to_digits n base).length - 1)
            / DigitsToNumber.nworkersFor cpu
                (NumberToDigits.number_to_digits n base).length)
        < (NumberToDigits.number_to_digits n base).length) :
    DigitsToNumber.digits_to_number (NumberToDigits.number_to_digits n base) base cpu
      = some n := by
  have hne : NumberToDigits.number_to_digits n base ≠ [] := by
    rw [NumberToDigits.number_to_digits_pos_eq n base hb hn]
    intro h0
    have hl := congrArg List.length h0
    rw [NumberToDigits.leafDigits_length] at hl
    simp at hl
  unfold DigitsToNumber.digits_to_number
  rw [DigitsToNumber.digitsToNumberWith_eq _ _ _ _ (by norm_num [DigitsToNumber.LEAF_TASK_DIGIT_LIMIT])
    hne hcpu hcov]
  rw [NumberToDigits.number_to_digits_pos_eq n base hb hn,
    NumberToDigits.convert_leafDigits,
    Nat.mod_eq_of_lt (Nat.lt_pow_succ_log_self (by omega) n)]

/-- C1 (witness): the round trip at `n = 123`, base 10, one cpu. -/
theorem round_trip_witness :
    2 ≤ 10 ∧ 1 ≤ 123 ∧ 1 ≤ 1
    ∧ (DigitsToNumber.nworkersFor 1 (NumberToDigits.number_to_digits 123 10).length - 1)
        * (((NumberToDigits.number_to_digits 123 10).length
              + DigitsToNumber.nworkersFor 1 (NumberToDigits.number_to_digits 123 10).length - 1)
            / DigitsToNumber.nworkersFor 1 (NumberToDigits.number_to_digits 123 10).length)
        < (NumberToDigits.number_to_digits 123 10).length
    ∧ DigitsToNumber.digits_to_number (NumberToDigits.number_to_digits 123 10) 10 1
        = some 123 :=
  ⟨by decide, by decide, by decide, by decide,
    round_trip 123 10 1 (by decide) (by decide) (by decide) (by decide)⟩

/-- C2: `combine` on `k ≥ 1` block values — each of the first `k - 1` the
value of an `s`-digit base-`B` block, the last of a `t`-digit block —
returns exactly the pair of the concatenated value
`∑ i < k - 1, vᵢ * B ^ ((k - 2 - i) * s + t) + v_{k-1}` (0-indexed; this is
the claim's `∑_{1 ≤ i ≤ k-1} vᵢ * B ^ ((k-1-i)s + t) + v_k`) and the weight
`B ^ ((k - 1) * s + t)` of the whole block, so the combined value is
independent of the partition. -/
theorem combine_concatenation (B s t : Nat) (vs : List Nat)
    (_hB : 2 ≤ B) (_hs : 1 ≤ s) (_ht1 : 1 ≤ t) (_hts : t ≤ s) (hk : 1 ≤ vs.length)
    (_hfull : ∀ i, i < vs.length - 1 → vs.getD i 0 < B ^ s)
    (_hlast : vs.getD (vs.length - 1) 0 < B ^ t) :
    DigitsToNumber.combine vs (B ^ s) (B ^ t)
      = some ((∑ i ∈ Finset.range (vs.length - 1),
            vs.getD i 0 * B ^ ((vs.length - 2 - i) * s + t))
          + vs.getD (vs.length - 1) 0,
        B ^ ((vs.length - 1) * s + t)) := by
  have hne : vs ≠ [] := by
    intro h
    rw [h] at hk
    simp at hk
  rw [DigitsToNumber.combine_eq B s t vs hne,
    DigitsToNumber.blockValue_eq_sum B s t vs hne]

/-- C2 (witness): blocks `12|34|5` in base 10 with `s = 2`, `t = 1` combine
to `12345` with weight `10 ^ 5`. -/
theorem combine_concatenation_witness :
    2 ≤ 10 ∧ 1 ≤ 2 ∧ 1 ≤ 1 ∧ 1 ≤ 2 ∧ 1 ≤ ([12, 34, 5] : List Nat).length
    ∧ (∀ i, i < ([12, 34, 5] : List Nat).length - 1
        → ([12, 34, 5] : List Nat).getD i 0 < 10 ^ 2)
    ∧ ([12, 34, 5] : List Nat).getD (([12, 34, 5] : List Nat).length - 1) 0 < 10 ^ 1
    ∧ DigitsToNumber.combine [12, 34, 5] (10 ^ 2) (10 ^ 1) = some (12345, 10 ^ 5) := by
  refine ⟨by decide, by decide, by decide, by decide, by decide, by decide, by decide, ?_⟩
  have h := combine_concatenation 10 2 1 [12, 34, 5] (by decide) (by decide) (by decide)
    (by decide) (by decide) (by decide) (by decide)
  rw [h]
  norm_num [Finset.sum_range_succ]

/-- C3 (counterexample): for the fixed 6-digit input `101101₂`, one cpu
(1 worker) yields `some 45`, but 5 cpus (4 workers, ceil partition 2-2-2-0)
hand worker 3 the empty slice `digits[6:8]`; that worker crashes on the
unbound variable `ndigits` and the pipeline never produces a result: the
result is not the same for every worker count from 1 to the digit count. -/
theorem partition_invariance_counterexample :
    DigitsToNumber.digits_to_number [1, 0, 1, 1, 0, 1] 2 1 = some 45
    ∧ DigitsToNumber.digits_to_number [1, 0, 1, 1, 0, 1] 2 5 = none := by
  constructor <;> decide

/-- C3 (amended): partition invariance holds on the non-crashing domain:
for every chunk size `L ≥ 1` and every cpu count whose derived worker
partition gives each worker a non-empty slice, the pipeline returns
`some (convert base digits)` — a value independent of both the worker count
and the chunk size. -/
theorem partition_invariance (digits : List Nat) (base cpu L : Nat)
    (_hb : 2 ≤ base) (_hdig : ∀ d ∈ digits, d < base) (hne : digits ≠ [])
    (hcpu : 1 ≤ cpu) (hL : 1 ≤ L)
    (hcov : (DigitsToNumber.nworkersFor cpu digits.length - 1)
        * ((digits.length + DigitsToNumber.nworkersFor cpu digits.length - 1)
            / DigitsToNumber.nworkersFor cpu digits.length)
        < digits.length) :
    DigitsToNumber.digitsToNumberWith L digits base cpu
      = some (DigitsToNumber.convert base digits) :=
  DigitsToNumber.digitsToNumberWith_eq L digits base cpu hL hne hcpu hcov

/-- C3 (witness): `[1, 2, 3]` in base 10 with 2 cpus and chunk size 2. -/
theorem partition_invariance_witness :
    2 ≤ 10 ∧ (∀ d ∈ [1, 2, 3], d < 10) ∧ ([1, 2, 3] : List Nat) ≠ [] ∧ 1 ≤ 2 ∧ 1 ≤ 2
    ∧ (DigitsToNumber.nworkersFor 2 ([1, 2, 3] : List Nat).length - 1)
        * ((([1, 2, 3] : List Nat).length
              + DigitsToNumber.nworkersFor 2 ([1, 2, 3] : List Nat).length - 1)
            / DigitsToNumber.nworkersFor 2 ([1, 2, 3] : List Nat).length)
        < ([1, 2, 3] : List Nat).length
    ∧ DigitsToNumber.digitsToNumberWith 2 [1, 2, 3] 10 2
        = some (DigitsToNumber.convert 10 [1, 2, 3]) :=
  ⟨by decide, by decide, by decide, by decide, by decide, by decide,
    partition_invariance [1, 2, 3] 10 2 2 (by decide) (by decide) (by decide)
      (by decide) (by decide) (by decide)⟩

/-- C4 (counterexample): `number_to_digits(0, 10)` returns `[]`, not `[0]`:
`get_ndigits(0, 10)` is 0, so the output array has length 0. -/
theorem number_to_digits_zero_counterexample :
    NumberToDigits.number_to_digits 0 10 ≠ [0]
    ∧ NumberToDigits.number_to_digits 0 10 = [] := by
  constructor <;> decide

/-- C4 (amended): for every base ≥ 2, `number_to_digits(0, base)` returns
the empty digit sequence `[]` (not `[0]`). -/
theorem number_to_digits_zero (base : Nat) (hb : 2 ≤ base) :
    NumberToDigits.number_to_digits 0 base = [] := by
  rw [NumberToDigits.number_to_digits_eq, NumberToDigits.rootTask_ndigits_zero base hb]
  rfl

/-- C4 (witness): base 10. -/
theorem number_to_digits_zero_witness :
    2 ≤ 10 ∧ NumberToDigits.number_to_digits 0 10 = [] :=
  ⟨by decide, number_to_digits_zero 10 (by decide)⟩

/-- C5 (counterexample): `get_ndigits(0, 10)` returns 0, not the claimed 1:
the downward correction loop drives `max` to `1 // 10 = 0` and `ndigits`
to `-1` before the final re-increment. -/
theorem get_ndigits_zero_counterexample :
    NumberToDigits.get_ndigits 0 10 = 0 ∧ NumberToDigits.get_ndigits 0 10 ≠ 1 := by
  constructor <;> decide

/-- C5 (amended): for `n ≥ 1` and base ≥ 2, `get_ndigits` returns the
minimal digit count `d = log_base n + 1`, i.e. `base^(d-1) ≤ n < base^d`;
for `n = 0` it returns 0 (not 1). -/
theorem get_ndigits_minimal (n base : Nat) (hb : 2 ≤ base) :
    (1 ≤ n → NumberToDigits.get_ndigits n base = (Nat.log base n + 1 : Nat)
      ∧ base ^ ((NumberToDigits.get_ndigits n base).toNat - 1) ≤ n
      ∧ n < base ^ (NumberToDigits.get_ndigits n base).toNat)
    ∧ (n = 0 → NumberToDigits.get_ndigits n base = 0) := by
  constructor
  · intro hn
    have h := NumberToDigits.get_ndigits_eq_log n base hb hn
    refine ⟨h, ?_, ?_⟩
    · rw [h]
      simp only [Int.toNat_ofNat, Nat.add_sub_cancel]
      exact Nat.pow_log_le_self base (by omega)
    · rw [h]
      simp only [Int.toNat_ofNat]
      exact Nat.lt_pow_succ_log_self (by omega) n
  · intro h0
    subst h0
    exact NumberToDigits.get_ndigits_zero base hb

/-- C5 (witness): `get_ndigits(123, 10)`. -/
theorem get_ndigits_minimal_witness :
    2 ≤ 10
    ∧ ((1 ≤ 123 → NumberToDigits.get_ndigits 123 10 = (Nat.log 10 123 + 1 : Nat)
        ∧ 10 ^ ((NumberToDigits.get_ndigits 123 10).toNat - 1) ≤ 123
        ∧ 123 < 10 ^ (NumberToDigits.get_ndigits 123 10).toNat)
      ∧ (123 = 0 → NumberToDigits.get_ndigits 123 10 = 0)) :=
  ⟨by decide, get_ndigits_minimal 123 10 (by decide)⟩

/-- C6: the digit sequence of `number_to_digits(n, base)` never has a
leading zero digit — its head, when present, is nonzero (for `n ≥ 1` the
leading digit is `n / base ^ log_base n ≥ 1`; for `n = 0` the sequence is
empty, so the claim's exception for a length-1 `[0]` sequence is never even
exercised). -/
theorem no_leading_zero (n base : Nat) (hb : 2 ≤ base) :
    (NumberToDigits.number_to_digits n base).head? ≠ some 0 := by
  rcases Nat.eq_zero_or_pos n with hn | hn
  · subst hn
    rw [NumberToDigits.number_to_digits_eq,
      NumberToDigits.rootTask_ndigits_zero base hb]
    intro h
    simp [NumberToDigits.leafDigits] at h
  · rw [NumberToDigits.number_to_digits_pos_eq n base hb hn]
    have h := NumberToDigits.leafDigits_head_pos n base hb hn
    rw [h.1]
    intro hc
    have h1 := h.2
    simp only [Option.some_inj] at hc
    omega

/-- C6 (witness): `n = 123`, base 10. -/
theorem no_leading_zero_witness :
    2 ≤ 10 ∧ (NumberToDigits.number_to_digits 123 10).head? ≠ some 0 :=
  ⟨by decide, no_leading_zero 123 10 (by decide)⟩

/-- C7: `process_internal` on a task of depth ≥ 1 returns exactly two
subtasks `[upper, lower]`: lower gets `⌊ndigits/2⌋` digits, digit counts
add up, the number splits as quotient/remainder by `base ^ lower.ndigits`,
the indices are `task.index` and `task.index + upper.ndigits`, and both
children have depth `task.depth - 1`. -/
theorem process_internal_split (base : Nat) (t : NumberToDigits.Task)
    (_hb : 2 ≤ base) (_hd : 1 ≤ t.depth) :
    ∃ upper lower : NumberToDigits.Task,
      NumberToDigits.process_internal base t = [upper, lower]
      ∧ lower.ndigits = t.ndigits / 2
      ∧ upper.ndigits + lower.ndigits = t.ndigits
      ∧ upper.number * base ^ lower.ndigits + lower.number = t.number
      ∧ lower.number < base ^ lower.ndigits
      ∧ upper.index = t.index
      ∧ lower.index = t.index + upper.ndigits
      ∧ upper.depth = t.depth - 1
      ∧ lower.depth = t.depth - 1 := by
  refine ⟨_, _, NumberToDigits.process_internal_children base t,
    rfl, ?_, ?_, ?_, rfl, rfl, rfl, rfl⟩
  · show t.ndigits - t.ndigits / 2 + t.ndigits / 2 = t.ndigits
    omega
  · show t.number / base ^ (t.ndigits / 2) * base ^ (t.ndigits / 2)
        + t.number % base ^ (t.ndigits / 2) = t.number
    exact Nat.div_add_mod' t.number (base ^ (t.ndigits / 2))
  · show t.number % base ^ (t.ndigits / 2) < base ^ (t.ndigits / 2)
    exact Nat.mod_lt _ (Nat.pow_pos (by omega : 0 < base))

/-- C7 (witness): the 5-digit task `12345` at index 7, depth 2, base 10. -/
theorem process_internal_split_witness :
    2 ≤ 10 ∧ 1 ≤ (⟨12345, 5, 7, 2⟩ : NumberToDigits.Task).depth
    ∧ ∃ upper lower : NumberToDigits.Task,
      NumberToDigits.process_internal 10 ⟨12345, 5, 7, 2⟩ = [upper, lower]
      ∧ lower.ndigits = (⟨12345, 5, 7, 2⟩ : NumberToDigits.Task).ndigits / 2
      ∧ upper.ndigits + lower.ndigits = (⟨12345, 5, 7, 2⟩ : NumberToDigits.Task).ndigits
      ∧ upper.number * 10 ^ lower.ndigits + lower.number
          = (⟨12345, 5, 7, 2⟩ : NumberToDigits.Task).number
      ∧ lower.number < 10 ^ lower.ndigits
      ∧ upper.index = (⟨12345, 5, 7, 2⟩ : NumberToDigits.Task).index
      ∧ lower.index = (⟨12345, 5, 7, 2⟩ : NumberToDigits.Task).index + upper.ndigits
      ∧ upper.depth = (⟨12345, 5, 7, 2⟩ : NumberToDigits.Task).depth - 1
      ∧ lower.depth = (⟨12345, 5, 7, 2⟩ : NumberToDigits.Task).depth - 1 :=
  ⟨by decide, by decide, process_internal_split 10 ⟨12345, 5, 7, 2⟩ (by decide) (by decide)⟩

/-- C8 (counterexample): reachability can break minimality.  For
`n = 2^1500`, base 2, the root task has 1501 digits and depth 1; its lower
child — reachable by one `process_internal` split — carries `number = 0`
with `ndigits = 750`, while the true minimal digit count of 0 is 1 by the
claim's own convention (and `base^(ndigits-1) ≤ number` fails). -/
theorem task_not_minimal_counterexample :
    NumberToDigits.Reachable 2 (NumberToDigits.rootTask (2 ^ 1500) 2)
      (⟨0, 750, 751, 0⟩ : NumberToDigits.Task)
    ∧ (⟨0, 750, 751, 0⟩ : NumberToDigits.Task).number = 0
    ∧ (⟨0, 750, 751, 0⟩ : NumberToDigits.Task).ndigits ≠ 1
    ∧ ¬ (2 ^ ((⟨0, 750, 751, 0⟩ : NumberToDigits.Task).ndigits - 1)
          ≤ (⟨0, 750, 751, 0⟩ : NumberToDigits.Task).number) := by
  have hndval : (NumberToDigits.get_ndigits (2 ^ 1500) 2).toNat = 1501 := by
    rw [NumberToDigits.get_ndigits_eq_log (2 ^ 1500) 2 (by decide)
      (Nat.one_le_two_pow), Nat.log_pow (by decide)]
    rfl
  have hroot : NumberToDigits.rootTask (2 ^ 1500) 2
      = ⟨2 ^ 1500, 1501, 0, NumberToDigits.get_depth 1501⟩ := by
    unfold NumberToDigits.rootTask
    rw [hndval]
  have hdepth : NumberToDigits.get_depth 1501 = 1 := by decide
  rw [hdepth] at hroot
  have hmod : (2 : Nat) ^ 1500 % 2 ^ 750 = 0 := by
    rw [show (2 : Nat) ^ 1500 = 2 ^ 750 * 2 ^ 750 from by rw [← pow_add]]
    exact Nat.mul_mod_left _ _
  refine ⟨?_, rfl, by decide, ?_⟩
  · apply NumberToDigits.Reachable.split (⟨2 ^ 1500, 1501, 0, 1⟩ : NumberToDigits.Task)
    · rw [← hroot]
      exact NumberToDigits.Reachable.refl
    · decide
    · have hpi : NumberToDigits.process_internal 2
            (⟨2 ^ 1500, 1501, 0, 1⟩ : NumberToDigits.Task)
          = [⟨2 ^ 1500 / 2 ^ 750, 751, 0, 0⟩, ⟨0, 750, 751, 0⟩] := by
        rw [NumberToDigits.process_internal_children]
        norm_num [hmod]
      rw [hpi]
      simp
  · have hpos : 0 < (2 : Nat) ^ 749 := Nat.pow_pos (by decide)
    show ¬ (2 ^ (750 - 1) ≤ 0)
    omega

/-- C8 (amended): every task reachable from the root satisfies the capacity
bound `number < base ^ ndigits` (its digit count always suffices), and the
root's digit count is exactly minimal for `n ≥ 1`; but reachable subtasks
need not have minimal digit counts — a lower half can be 0 with a large
digit count. -/
theorem task_digits_invariant (n base : Nat) (hb : 2 ≤ base) :
    (∀ t : NumberToDigits.Task,
      NumberToDigits.Reachable base (NumberToDigits.rootTask n base) t →
        t.number < base ^ t.ndigits)
    ∧ (1 ≤ n →
        base ^ ((NumberToDigits.rootTask n base).ndigits - 1) ≤ n
        ∧ n < base ^ (NumberToDigits.rootTask n base).ndigits) := by
  constructor
  · intro t ht
    exact NumberToDigits.reachable_lt n base hb ht
  · intro hn
    rw [NumberToDigits.rootTask_ndigits_pos n base hb hn]
    constructor
    · simp only [Nat.add_sub_cancel]
      exact Nat.pow_log_le_self base (by omega)
    · exact Nat.lt_pow_succ_log_self (by omega) n

/-- C8 (witness): `n = 5`, base 10. -/
theorem task_digits_invariant_witness :
    2 ≤ 10
    ∧ ((∀ t : NumberToDigits.Task,
        NumberToDigits.Reachable 10 (NumberToDigits.rootTask 5 10) t →
          t.number < 10 ^ t.ndigits)
      ∧ (1 ≤ 5 →
          10 ^ ((NumberToDigits.rootTask 5 10).ndigits - 1) ≤ 5
          ∧ 5 < 10 ^ (NumberToDigits.rootTask 5 10).ndigits)) :=
  ⟨by decide, task_digits_invariant 5 10 (by decide)⟩

/-- C9 (code evaluated at the failing input): digits of length 6 on a 5-cpu
machine give `nworkers = 4`, ceil partition size 2, and worker 3 receives
the empty range `digits[6:8]` — contradicting the claim that every spawned
worker's range is non-empty; the pipeline then produces no result (the
worker hits an unbound local, the coordinator blocks forever). -/
theorem empty_slice_failing_input :
    DigitsToNumber.nworkersFor 5 6 = 4
    ∧ DigitsToNumber.workerSlices (List.replicate 6 0) 4
        = [[0, 0], [0, 0], [0, 0], []]
    ∧ DigitsToNumber.digits_to_number (List.replicate 6 0) 2 5 = none := by
  refine ⟨by decide, by decide, by decide⟩

/-- C10: the predicate `number < base ^ ndigits` holds for the root task,
is preserved by `process_internal` for both children, and consequently the
Horner value of the digit list `process_leaf` produces for any reachable
leaf task equals that task's number exactly — no high digits are lost. -/
theorem leaf_value_exact (n base : Nat) (hb : 2 ≤ base) :
    (NumberToDigits.rootTask n base).number
        < base ^ (NumberToDigits.rootTask n base).ndigits
    ∧ (∀ t u : NumberToDigits.Task, t.number < base ^ t.ndigits →
        u ∈ NumberToDigits.process_internal base t → u.number < base ^ u.ndigits)
    ∧ (∀ t : NumberToDigits.Task,
        NumberToDigits.Reachable base (NumberToDigits.rootTask n base) t →
        t.depth = 0 →
        DigitsToNumber.convert base (NumberToDigits.process_leaf base t).digits
          = t.number) := by
  refine ⟨NumberToDigits.reachable_lt n base hb NumberToDigits.Reachable.refl, ?_, ?_⟩
  · intro t u ht hu
    exact NumberToDigits.process_internal_preserves base hb ht hu
  · intro t ht _
    exact NumberToDigits.reachable_leaf_exact n base hb ht

/-- C10 (witness): `n = 255`, base 16. -/
theorem leaf_value_exact_witness :
    2 ≤ 16
    ∧ ((NumberToDigits.rootTask 255 16).number
          < 16 ^ (NumberToDigits.rootTask 255 16).ndigits
      ∧ (∀ t u : NumberToDigits.Task, t.number < 16 ^ t.ndigits →
          u ∈ NumberToDigits.process_internal 16 t → u.number < 16 ^ u.ndigits)
      ∧ (∀ t : NumberToDigits.Task,
          NumberToDigits.Reachable 16 (NumberToDigits.rootTask 255 16) t →
          t.depth = 0 →
          DigitsToNumber.convert 16 (NumberToDigits.process_leaf 16 t).digits
            = t.number)) :=
  ⟨by decide, leaf_value_exact 255 16 (by decide)⟩
